import Mathlib

/-!
Verification of the natural-language specification of the `briantest`
product-matching repository against a shallow embedding of its Python
source (`fast_search.py`, `probabilistic_search.py`).

Modelling conventions:
* Python strings are modelled as lists of code points (`List Nat`); the
  embedding covers the ASCII fragment of Python's Unicode-aware `str.lower`,
  `re.sub(r'[^\w\s]', ' ', ...)` and `str.split()`.
* Python floats are modelled as rationals (`ℚ`), the idealised real-number
  semantics of the arithmetic in the source.
* The third-party `rapidfuzz.fuzz` scorers (`ratio`, `partial_ratio`,
  `token_sort_ratio`, `token_set_ratio`) are opaque parameters: every claim
  under scrutiny concerns how the repository combines their outputs, not the
  scorers' internals, so the development quantifies over an arbitrary
  `FuzzScorer`.
* The TF-IDF lexical index is likewise abstracted by the cosine-similarity
  vector it produces (`sims : List ℚ`, one entry per embedding row); all
  claims hold for every such vector.
-/

namespace BrianTest

/-! ## Text normalizer (`preprocess_text` in both source files)

`fast_search.py` lines 31–39 and `probabilistic_search.py` lines 37–51 define
the identical function: `str(text).lower()`, then
`re.sub(r'[^\w\s]', ' ', text)`, then `' '.join(text.split())`.
-/

/-- Code-point model of Python `str.lower` on the ASCII range:
uppercase `A`–`Z` (65–90) maps to `a`–`z` (97–122). -/
def lowerCp (n : Nat) : Nat :=
  if 65 ≤ n ∧ n ≤ 90 then n + 32 else n

/-- Code-point model of Python's regex class `\w` (ASCII fragment):
digits, letters, underscore.  Note that `\w` KEEPS the underscore (95). -/
def isWordCp (n : Nat) : Bool :=
  (48 ≤ n && n ≤ 57) || (65 ≤ n && n ≤ 90) || (97 ≤ n && n ≤ 122) || n == 95

/-- Code-point model of Python whitespace (`\s` / `str.split()`):
space, tab, newline, vertical tab, form feed, carriage return. -/
def isSpaceCp (n : Nat) : Bool :=
  n == 32 || n == 9 || n == 10 || n == 11 || n == 12 || n == 13

/-- One character step of `re.sub(r'[^\w\s]', ' ', text)`: characters that
are neither word characters nor whitespace become a space. -/
def subCp (n : Nat) : Nat :=
  if isWordCp n || isSpaceCp n then n else 32

/-- Length of `dropWhile` never exceeds the input length. -/
theorem length_dropWhile_le' {α : Type} (p : α → Bool) (l : List α) :
    (l.dropWhile p).length ≤ l.length := by
  induction l with
  | nil => simp [List.dropWhile]
  | cons a l ih =>
    simp only [List.dropWhile]
    cases p a
    · simp
    · simp
      omega

/-- Python `text.split()` (token-at-a-time formulation, used in proofs):
maximal runs of non-whitespace characters, with empty tokens dropped. -/
def pysplitW : List Nat → List (List Nat)
  | [] => []
  | c :: cs =>
    if isSpaceCp c then pysplitW cs
    else (c :: cs.takeWhile (fun d => !isSpaceCp d)) ::
      pysplitW (cs.dropWhile (fun d => !isSpaceCp d))
termination_by l => l.length
decreasing_by
  · simp
  · simp
    have h := length_dropWhile_le' (fun d => !isSpaceCp d) cs
    omega

/-- Python `text.split()`, accumulator formulation (structurally recursive,
so that concrete inputs evaluate by kernel reduction). -/
def pysplitAux : List Nat → List Nat → List (List Nat)
  | [], acc => if acc.isEmpty then [] else [acc.reverse]
  | c :: cs, acc =>
    if isSpaceCp c then
      if acc.isEmpty then pysplitAux cs [] else acc.reverse :: pysplitAux cs []
    else pysplitAux cs (c :: acc)

/-- Python `text.split()`. -/
def pysplit (l : List Nat) : List (List Nat) := pysplitAux l []

/-- The accumulator formulation agrees with the token-at-a-time one. -/
theorem pysplitAux_spec : ∀ l acc : List Nat,
    pysplitAux l acc =
      if acc.isEmpty then pysplitW l
      else (acc.reverse ++ l.takeWhile (fun d => !isSpaceCp d)) ::
        pysplitW (l.dropWhile (fun d => !isSpaceCp d)) := by
  intro l
  induction l with
  | nil =>
    intro acc
    cases acc <;> simp [pysplitAux, pysplitW]
  | cons c cs ih =>
    intro acc
    by_cases hc : isSpaceCp c = true
    · cases acc with
      | nil =>
        simp only [pysplitAux, hc, if_true, List.isEmpty_nil, ih]
        rw [pysplitW, if_pos hc]
      | cons a as =>
        simp only [pysplitAux, hc, if_true, List.isEmpty_cons, ih]
        rw [pysplitW, if_pos hc]
        simp [List.takeWhile_cons, List.dropWhile_cons, hc]
        rw [pysplitW, if_pos hc]
    · cases acc with
      | nil =>
        simp only [pysplitAux, hc, if_false, ih]
        rw [pysplitW, if_neg hc]
        simp [List.takeWhile_cons, List.dropWhile_cons, hc]
      | cons a as =>
        simp only [pysplitAux, hc, if_false, ih]
        simp [List.takeWhile_cons, List.dropWhile_cons, hc]

/-- `pysplit` agrees with the token-at-a-time formulation. -/
theorem pysplit_eq (l : List Nat) : pysplit l = pysplitW l := by
  rw [pysplit, pysplitAux_spec]
  simp

/-- Python `' '.join(tokens)`. -/
def joinSpace : List (List Nat) → List Nat
  | [] => []
  | [t] => t
  | t :: t' :: ts => t ++ 32 :: joinSpace (t' :: ts)

/-- `preprocess_text` on code points: lower-case, replace `[^\w\s]` by a
space, then collapse/trim whitespace via split + join. -/
def normalizeCps (l : List Nat) : List Nat :=
  joinSpace (pysplit ((l.map lowerCp).map subCp))

/-- Code points of a Lean string (used to write concrete inputs). -/
def strCps (s : String) : List Nat := s.data.map Char.toNat

/-- Back from code points to a Lean string. -/
def cpsToStr (l : List Nat) : String := String.mk (l.map Char.ofNat)

/-- `preprocess_text` including the `pd.isna(text) or text is None` guard:
missing input normalizes to the empty string. -/
def preprocess_text (t : Option String) : String :=
  match t with
  | none => ""
  | some s => cpsToStr (normalizeCps (strCps s))

/-! ## Data model for `FastProductMatcher.search_fast` (`fast_search.py` 77–174)

A training row carries its pandas index label (`iterrows` yields labels,
which the exact pass records in `exact_match_indices`, while the fuzzy pass
indexes positionally via `iloc`), plus the three columns
`Customer Query`, `Order Code`, `Description`.
-/

/-- One row of `self.training_data`. -/
structure Row where
  label : Nat
  query : List Nat
  code : List Nat
  desc : List Nat
deriving DecidableEq, Repr

/-- The `match_type` field of a result dictionary. -/
inductive MatchType where
  | exact
  | fuzzy
deriving DecidableEq, Repr

/-- One result dictionary produced by `search_fast`. -/
structure SearchResult where
  order_code : List Nat
  description : List Nat
  training_query : List Nat
  probability : ℚ
  tfidf_score : ℚ
  fuzzy_score : ℚ
  match_type : MatchType
deriving DecidableEq, Repr

/-- The four `rapidfuzz.fuzz` scorers used by the repository, as opaque
parameters returning raw scores (the library returns floats in [0,100]).
`scoreSimple` stands for `fuzz.ratio`, `scorePart` for `fuzz.partial_ratio`,
`scoreTokSort` for `fuzz.token_sort_ratio`, `scoreTokSet` for
`fuzz.token_set_ratio`. -/
structure FuzzScorer where
  scoreSimple : List Nat → List Nat → ℚ
  scorePart : List Nat → List Nat → ℚ
  scoreTokSort : List Nat → List Nat → ℚ
  scoreTokSet : List Nat → List Nat → ℚ

/-- Python slice `l[:k]` for an arbitrary (possibly negative) `k`. -/
def pySliceTo {α : Type} (l : List α) (k : Int) : List α :=
  l.take (if 0 ≤ k then k.toNat else ((l.length : Int) + k).toNat)

/-- Python slice `l[k:]` for an arbitrary (possibly negative) `k`. -/
def pySliceFrom {α : Type} (l : List α) (k : Int) : List α :=
  l.drop (if 0 ≤ k then k.toNat else ((l.length : Int) + k).toNat)

/-- Stable ascending insertion by key (`numpy.argsort` modelled as a stable
ascending sort of the index range; no claim depends on numpy's tie order). -/
def insertAscIdx (key : Nat → ℚ) (i : Nat) : List Nat → List Nat
  | [] => [i]
  | j :: l => if key j < key i then j :: insertAscIdx key i l else i :: j :: l

/-- Stable ascending sort of indices by key. -/
def sortAscIdx (key : Nat → ℚ) : List Nat → List Nat
  | [] => []
  | i :: l => insertAscIdx key i (sortAscIdx key l)

/-- `similarities.argsort()`: indices of `sims` ordered by value ascending. -/
def argsortAsc (sims : List ℚ) : List Nat :=
  sortAscIdx (fun i => sims.getD i 0) (List.range sims.length)

/-- Stable descending insertion of a result by `probability` (Python's
stable `list.sort(key=..., reverse=True)`). -/
def insertDescRes (r : SearchResult) : List SearchResult → List SearchResult
  | [] => [r]
  | s :: l =>
    if r.probability < s.probability then s :: insertDescRes r l else r :: s :: l

/-- Stable descending sort of results by `probability`. -/
def sortDescRes : List SearchResult → List SearchResult
  | [] => []
  | r :: l => insertDescRes r (sortDescRes l)

/-- The exact-pass result built from a matching row (`fast_search.py`
lines 98–106): probability, tfidf and fuzzy scores all 1.0. -/
def mkExact (row : Row) : SearchResult :=
  ⟨row.code, row.desc, row.query, 1, 1, 1, .exact⟩

/-- FIRST PASS (`fast_search.py` 88–107): every row whose normalized
`Customer Query` equals the normalized input query yields an exact result,
in iteration order. -/
def exactPass (td : List Row) (qc : List Nat) : List SearchResult :=
  (td.filter (fun row => normalizeCps row.query == qc)).map mkExact

/-- The `exact_match_indices` set: pandas labels of exact-matched rows. -/
def exactLabels (td : List Row) (qc : List Nat) : List Nat :=
  (td.filter (fun row => normalizeCps row.query == qc)).map Row.label

/-- The fuzzy-pass result for candidate position `idx` with row `row`
(`fast_search.py` 136–154): fuzzy score is the max of
`partial_ratio(query_clean, preprocess(training_query))`,
`token_sort_ratio(query_clean, preprocess(training_query))`,
`partial_ratio(query_clean, preprocess(desc))`, divided by 100;
probability is `0.7 * similarities[idx] + 0.3 * fuzzy_score`. -/
def mkFuzzy (F : FuzzScorer) (sims : List ℚ) (qc : List Nat) (idx : Nat)
    (row : Row) : SearchResult :=
  let fz := (max (F.scorePart qc (normalizeCps row.query))
    (max (F.scoreTokSort qc (normalizeCps row.query))
      (F.scorePart qc (normalizeCps row.desc)))) / 100
  let sim := sims.getD idx 0
  ⟨row.code, row.desc, row.query, 7/10 * sim + 3/10 * fz, sim, fz, .fuzzy⟩

/-- SECOND PASS loop (`fast_search.py` 119–154): walk the candidate indices;
skip positions beyond the training-set bound, skip positions in
`exact_match_indices`, break once `top_k` fuzzy results are collected,
otherwise emit a fuzzy result. -/
def fuzzyPass (F : FuzzScorer) (td : List Row) (sims : List ℚ) (qc : List Nat)
    (topK : Int) (exLabels : List Nat) :
    List Nat → List SearchResult → List SearchResult
  | [], acc => acc
  | idx :: rest, acc =>
    if td.length ≤ idx then fuzzyPass F td sims qc topK exLabels rest acc
    else if idx ∈ exLabels then fuzzyPass F td sims qc topK exLabels rest acc
    else if topK ≤ (acc.length : Int) then acc
    else fuzzyPass F td sims qc topK exLabels rest
      (acc ++ [mkFuzzy F sims qc idx (td.getD idx ⟨0, [], [], []⟩)])

/-- Deduplication by `order_code` keeping the first occurrence
(`fast_search.py` 163–169). -/
def dedupByCode : List SearchResult → List (List Nat) → List SearchResult
  | [], _ => []
  | r :: rs, seen =>
    if r.order_code ∈ seen then dedupByCode rs seen
    else r :: dedupByCode rs (r.order_code :: seen)

/-- `FastProductMatcher.search_fast` (`fast_search.py` 77–174), with the
lexical index abstracted by the cosine-similarity vector `sims` it returns
(one entry per embedding row).  Candidate selection is
`similarities.argsort()[-top_k*3:][::-1]`; the deduplicated concatenation of
exact then score-sorted fuzzy results is truncated by the Python slice
`[:top_k]`. -/
def search_fast (F : FuzzScorer) (sims : List ℚ) (td : List Row)
    (query : List Nat) (topK : Int) : List SearchResult :=
  let qc := normalizeCps query
  let exacts := exactPass td qc
  let exLabels := exactLabels td qc
  let topIdx := (pySliceFrom (argsortAsc sims) (-(topK * 3))).reverse
  let fuzzResults := fuzzyPass F td sims qc topK exLabels topIdx []
  let fuzzSorted := sortDescRes fuzzResults
  pySliceTo (dedupByCode (exacts ++ fuzzSorted) []) topK

/-! ## Probabilistic matcher (`probabilistic_search.py`) -/

/-- Python `dict` lookup `d.get(k)` on an insertion-ordered association
list. -/
def dictGet : List (List Nat × ℚ) → List Nat → Option ℚ
  | [], _ => none
  | p :: rest, k => if p.1 = k then some p.2 else dictGet rest k

/-- Python `dict` assignment `d[k] = v`: overwrite the (unique) existing
entry in place, else append. -/
def dictSet : List (List Nat × ℚ) → List Nat → ℚ → List (List Nat × ℚ)
  | [], k, v => [(k, v)]
  | p :: rest, k, v =>
    if p.1 = k then (k, v) :: rest else p :: dictSet rest k v

/-- The boost curve of `get_training_boost` (`probabilistic_search.py`
line 271): `boost = 0.3 + (max_similarity - 0.7) * (0.5 / 0.3)`. -/
def boostOf (s : ℚ) : ℚ := 3/10 + (s - 7/10) * ((5/10) / (3/10))

/-- The similarity used by `get_training_boost` (`probabilistic_search.py`
259–266): max of the four fuzzy scores between normalized input query and
normalized training query, each divided by 100. -/
def maxSim4 (F : FuzzScorer) (qc tq : List Nat) : ℚ :=
  max (F.scoreSimple qc tq / 100)
    (max (F.scorePart qc tq / 100)
      (max (F.scoreTokSort qc tq / 100) (F.scoreTokSet qc tq / 100)))

/-- `ProbabilisticProductMatcher.get_training_boost`
(`probabilistic_search.py` 246–274): for every training row whose
`maxSim4` against the query is at least 0.7, set
`boost_scores[code] = max(boost_scores.get(code, 0), boostOf maxSim4)`. -/
def get_training_boost (F : FuzzScorer) (td : List Row)
    (query : List Nat) : List (List Nat × ℚ) :=
  let qc := normalizeCps query
  td.foldl
    (fun d row =>
      let ms := maxSim4 F qc (normalizeCps row.query)
      if 7/10 ≤ ms then
        dictSet d row.code (max ((dictGet d row.code).getD 0) (boostOf ms))
      else d)
    []

/-- Spec-side description of the per-code boost candidates: the boost of
every training row with that `order_code` whose similarity clears the 0.7
threshold, in training order. -/
def matchingBoosts (F : FuzzScorer) (td : List Row) (query : List Nat)
    (code : List Nat) : List ℚ :=
  ((td.filter (fun row => row.code = code ∧
      7/10 ≤ maxSim4 F (normalizeCps query) (normalizeCps row.query))).map
    (fun row => boostOf (maxSim4 F (normalizeCps query) (normalizeCps row.query))))

/-- Running maximum with Python's `d.get(code, 0)` default, mirroring the
accumulation of `get_training_boost`. -/
def optAccMax : Option ℚ → List ℚ → Option ℚ
  | o, [] => o
  | o, x :: l => optAccMax (some (max (o.getD 0) x)) l

/-- `ProbabilisticProductMatcher.extract_features`
(`probabilistic_search.py` 91–136): normalize the three inputs and emit, in
order: four query/description fuzzy scores over 100, two query/code fuzzy
scores over 100, the length ratio (0 when the normalized description is
empty), and three word-overlap ratios (0 when the denominator word set is
empty).  Note the source appends exactly TEN features. -/
def extract_features (F : FuzzScorer) (query desc code : List Nat) : List ℚ :=
  let qc := normalizeCps query
  let dc := normalizeCps desc
  let cc := normalizeCps code
  let qw := (pysplit qc).toFinset
  let dw := (pysplit dc).toFinset
  let cw := (pysplit cc).toFinset
  [ F.scoreSimple qc dc / 100,
    F.scorePart qc dc / 100,
    F.scoreTokSort qc dc / 100,
    F.scoreTokSet qc dc / 100,
    F.scoreSimple qc cc / 100,
    F.scorePart qc cc / 100,
    if 0 < dc.length then (qc.length : ℚ) / (dc.length : ℚ) else 0,
    if 0 < dw.card then ((qw ∩ dw).card : ℚ) / (dw.card : ℚ) else 0,
    if 0 < qw.card then ((qw ∩ dw).card : ℚ) / (qw.card : ℚ) else 0,
    if 0 < cw.card then ((qw ∩ cw).card : ℚ) / (cw.card : ℚ) else 0 ]

/-- The trained state of `ProbabilisticProductMatcher`: the `is_trained`
flag and the scaler + random-forest pipeline abstracted as an arbitrary
function from the feature vector to a raw prediction. -/
structure ProbModel where
  is_trained : Bool
  predictRaw : List ℚ → ℚ

/-- `ProbabilisticProductMatcher.predict_probability`
(`probabilistic_search.py` 199–209): raises `ValueError` when not trained;
otherwise extracts features, runs the scaled model, and clips to [0,1]. -/
def predict_probability (M : ProbModel) (F : FuzzScorer)
    (query desc code : List Nat) : Except String ℚ :=
  if M.is_trained then
    .ok (max 0 (min 1 (M.predictRaw (extract_features F query desc code))))
  else
    .error "Model not trained. Call train() first."

/-- No leading space, no trailing space, no two adjacent spaces: the shape
guaranteed by collapsing runs of whitespace and trimming. -/
def singleSpaced (l : List Nat) : Prop :=
  l.head? ≠ some 32 ∧ l.getLast? ≠ some 32 ∧
    l.Chain' (fun a b => a ≠ 32 ∨ b ≠ 32)

/-- The first training row whose normalized `Customer Query` equals the
normalized input query (the row whose exact-pass result comes first). -/
def firstMatch (td : List Row) (qc : List Nat) : Option Row :=
  (td.filter (fun row => normalizeCps row.query == qc)).head?

/-- Alphanumeric code point (ASCII), the class named by the spec's
"non-alphanumeric, non-whitespace" wording.  Note this, unlike Python's
`\w` used by the source, excludes the underscore. -/
def isAlnumCp (n : Nat) : Bool :=
  (48 ≤ n && n ≤ 57) || (65 ≤ n && n ≤ 90) || (97 ≤ n && n ≤ 122)

/-- The documented range of the `rapidfuzz` scorers: every score lies in
[0, 100]. -/
def FuzzBounded (F : FuzzScorer) : Prop :=
  ∀ a b : List Nat,
    (0 ≤ F.scoreSimple a b ∧ F.scoreSimple a b ≤ 100) ∧
    (0 ≤ F.scorePart a b ∧ F.scorePart a b ≤ 100) ∧
    (0 ≤ F.scoreTokSort a b ∧ F.scoreTokSort a b ≤ 100) ∧
    (0 ≤ F.scoreTokSet a b ∧ F.scoreTokSet a b ≤ 100)

/-! ## Concrete instances used by counterexamples and witnesses -/

/-- A trivial fuzzy scorer (all scores 0); the exact pass, deduplication and
slicing behaviour of `search_fast` do not depend on the scorer. -/
def F0 : FuzzScorer := ⟨fun _ _ => 0, fun _ _ => 0, fun _ _ => 0, fun _ _ => 0⟩

/-- A constant fuzzy scorer with distinct values per algorithm. -/
def F1 : FuzzScorer := ⟨fun _ _ => 80, fun _ _ => 70, fun _ _ => 60, fun _ _ => 50⟩

/-- Training row with query "abc", order code "C1", description "d1". -/
def rowA : Row := ⟨0, [97, 98, 99], [67, 49], [100, 49]⟩

/-- Training row with the same query "abc" but order code "C2". -/
def rowB : Row := ⟨1, [97, 98, 99], [67, 50], [100, 50]⟩

/-- A training set in which two distinct rows share the same normalized
customer query. -/
def tdAB : List Row := [rowA, rowB]

/-- Training row with query "x", code "c", description "d". -/
def row1 : Row := ⟨0, [120], [99], [100]⟩

/-- A trained probabilistic model whose raw prediction is the constant 2
(exercises the upper clip). -/
def probModelHi : ProbModel := ⟨true, fun _ => 2⟩

/-- An untrained probabilistic model. -/
def probModelUntrained : ProbModel := ⟨false, fun _ => 0⟩

/-! ## Properties of the text normalizer -/

/-- `lowerCp` is idempotent: lowering never produces an uppercase letter. -/
theorem lowerCp_lowerCp (n : Nat) : lowerCp (lowerCp n) = lowerCp n := by
  unfold lowerCp
  by_cases h : 65 ≤ n ∧ n ≤ 90
  · rw [if_pos h, if_neg (by omega)]
  · rw [if_neg h, if_neg h]

/-- Lowering a word character, then substituting, yields either a space or a
lowered word character that both maps fix. -/
theorem subCp_classes (n : Nat) :
    (isWordCp (subCp n) = true ∨ isSpaceCp (subCp n) = true) := by
  unfold subCp
  split
  · rename_i h
    have h' : isWordCp n = true ∨ isSpaceCp n = true := by simpa using h
    exact h'
  · right
    decide

/-- `subCp` either fixes its input or produces a space. -/
theorem subCp_eq_or (n : Nat) : subCp n = n ∨ subCp n = 32 := by
  unfold subCp
  split
  · exact Or.inl rfl
  · exact Or.inr rfl

/-- `subCp` fixes word characters and whitespace. -/
theorem subCp_fix (n : Nat) (h : isWordCp n = true ∨ isSpaceCp n = true) :
    subCp n = n := by
  unfold subCp
  rcases h with h | h <;> simp [h]

/-- A list maps to itself under a function fixing all its members. -/
theorem map_fix {α : Type} (f : α → α) :
    ∀ l : List α, (∀ c ∈ l, f c = c) → l.map f = l := by
  intro l h
  induction l with
  | nil => rfl
  | cons a l ih =>
    simp only [List.map_cons]
    rw [h a (by simp), ih (fun c hc => h c (by simp [hc]))]

/-- Every token of `pysplitW` is nonempty and free of whitespace. -/
theorem pysplitW_tokens (l : List Nat) :
    ∀ t ∈ pysplitW l, t ≠ [] ∧ ∀ c ∈ t, isSpaceCp c = false := by
  induction l using pysplitW.induct with
  | case1 => simp [pysplitW]
  | case2 c cs hc ih =>
    rw [pysplitW, if_pos hc]
    exact ih
  | case3 c cs hc ih =>
    rw [pysplitW, if_neg hc]
    intro t ht
    rcases List.mem_cons.mp ht with rfl | ht
    · refine ⟨by simp, ?_⟩
      intro d hd
      rcases List.mem_cons.mp hd with rfl | hd
      · exact Bool.of_not_eq_true hc
      · have := List.mem_takeWhile_imp hd
        simpa using this
    · exact ih t ht

/-- Every token of `pysplit` is nonempty and free of whitespace. -/
theorem pysplit_tokens (l : List Nat) :
    ∀ t ∈ pysplit l, t ≠ [] ∧ ∀ c ∈ t, isSpaceCp c = false := by
  rw [pysplit_eq]
  exact pysplitW_tokens l

/-- Every character of a `pysplitW` token comes from the input list. -/
theorem pysplitW_mem (l : List Nat) :
    ∀ t ∈ pysplitW l, ∀ c ∈ t, c ∈ l := by
  induction l using pysplitW.induct with
  | case1 => simp [pysplitW]
  | case2 c cs hc ih =>
    rw [pysplitW, if_pos hc]
    intro t ht d hd
    exact List.mem_cons_of_mem c (ih t ht d hd)
  | case3 c cs hc ih =>
    rw [pysplitW, if_neg hc]
    intro t ht d hd
    rcases List.mem_cons.mp ht with rfl | ht
    · rcases List.mem_cons.mp hd with rfl | hd
      · exact List.mem_cons_self _ _
      · exact List.mem_cons_of_mem c ((List.takeWhile_sublist _).mem hd)
    · exact List.mem_cons_of_mem c ((List.dropWhile_sublist _).mem (ih t ht d hd))

/-- Every character of a `pysplit` token comes from the input list. -/
theorem pysplit_mem (l : List Nat) :
    ∀ t ∈ pysplit l, ∀ c ∈ t, c ∈ l := by
  rw [pysplit_eq]
  exact pysplitW_mem l

/-- Characters of `joinSpace` are spaces or token characters. -/
theorem mem_joinSpace (ts : List (List Nat)) :
    ∀ c ∈ joinSpace ts, c = 32 ∨ ∃ t ∈ ts, c ∈ t := by
  induction ts with
  | nil => simp [joinSpace]
  | cons t ts ih =>
    intro c hc
    match ts, hc with
    | [], hc =>
      exact Or.inr ⟨t, by simp, by simpa [joinSpace] using hc⟩
    | t' :: ts', hc =>
      rw [joinSpace] at hc
      rcases List.mem_append.mp hc with h | h
      · exact Or.inr ⟨t, by simp, h⟩
      · rcases List.mem_cons.mp h with rfl | h
        · exact Or.inl rfl
        · rcases ih c h with h32 | ⟨u, hu, hcu⟩
          · exact Or.inl h32
          · exact Or.inr ⟨u, by simp [hu], hcu⟩

/-- `takeWhile` of a list all of whose members satisfy the predicate. -/
theorem takeWhile_all {α : Type} (p : α → Bool) :
    ∀ l : List α, (∀ c ∈ l, p c = true) → l.takeWhile p = l := by
  intro l h
  induction l with
  | nil => rfl
  | cons a l ih =>
    rw [List.takeWhile_cons, h a (by simp), ih (fun c hc => h c (by simp [hc]))]
    simp

/-- `dropWhile` of a list all of whose members satisfy the predicate. -/
theorem dropWhile_all {α : Type} (p : α → Bool) :
    ∀ l : List α, (∀ c ∈ l, p c = true) → l.dropWhile p = [] := by
  intro l h
  induction l with
  | nil => rfl
  | cons a l ih =>
    rw [List.dropWhile_cons, h a (by simp)]
    simp only
    exact ih (fun c hc => h c (by simp [hc]))

/-- `takeWhile` across an append that stops exactly at `x`. -/
theorem takeWhile_append_stop {α : Type} (p : α → Bool) (x : α)
    (l₁ l₂ : List α) (h₁ : ∀ c ∈ l₁, p c = true) (hx : p x = false) :
    (l₁ ++ x :: l₂).takeWhile p = l₁ := by
  induction l₁ with
  | nil => simp [List.takeWhile_cons, hx]
  | cons a l ih =>
    rw [List.cons_append, List.takeWhile_cons, h₁ a (by simp),
      ih (fun c hc => h₁ c (by simp [hc]))]
    simp

/-- `dropWhile` across an append that stops exactly at `x`. -/
theorem dropWhile_append_stop {α : Type} (p : α → Bool) (x : α)
    (l₁ l₂ : List α) (h₁ : ∀ c ∈ l₁, p c = true) (hx : p x = false) :
    (l₁ ++ x :: l₂).dropWhile p = x :: l₂ := by
  induction l₁ with
  | nil => simp [List.dropWhile_cons, hx]
  | cons a l ih =>
    rw [List.cons_append, List.dropWhile_cons, h₁ a (by simp)]
    simp only
    exact ih (fun c hc => h₁ c (by simp [hc]))

/-- Splitting a space-join of nonempty whitespace-free tokens recovers the
tokens. -/
theorem pysplitW_joinSpace (ts : List (List Nat))
    (h : ∀ t ∈ ts, t ≠ [] ∧ ∀ c ∈ t, isSpaceCp c = false) :
    pysplitW (joinSpace ts) = ts := by
  induction ts with
  | nil => simp [joinSpace, pysplitW]
  | cons t ts ih =>
    obtain ⟨hne, hfree⟩ := h t (by simp)
    obtain ⟨c, cs, rfl⟩ := List.exists_cons_of_ne_nil hne
    have hc : isSpaceCp c = false := hfree c (by simp)
    have hcs : ∀ d ∈ cs, (!isSpaceCp d) = true := by
      intro d hd
      simp [hfree d (by simp [hd])]
    match ts with
    | [] =>
      show pysplitW (c :: cs) = [c :: cs]
      rw [pysplitW, if_neg (by simp [hc]), takeWhile_all _ cs hcs,
        dropWhile_all _ cs hcs, pysplitW]
    | t' :: ts' =>
      show pysplitW (c :: (cs ++ 32 :: joinSpace (t' :: ts'))) = _
      rw [pysplitW, if_neg (by simp [hc]),
        takeWhile_append_stop _ 32 cs _ hcs (by decide),
        dropWhile_append_stop _ 32 cs _ hcs (by decide)]
      have : pysplitW (32 :: joinSpace (t' :: ts')) = pysplitW (joinSpace (t' :: ts')) := by
        rw [pysplitW, if_pos (by decide)]
      rw [this, ih (fun u hu => h u (by simp [hu]))]

/-- Splitting a space-join of nonempty whitespace-free tokens recovers the
tokens (structural formulation). -/
theorem pysplit_joinSpace (ts : List (List Nat))
    (h : ∀ t ∈ ts, t ≠ [] ∧ ∀ c ∈ t, isSpaceCp c = false) :
    pysplit (joinSpace ts) = ts := by
  rw [pysplit_eq]
  exact pysplitW_joinSpace ts h

/-- Every character of a normalized string is a lowered word character or a
single space. -/
theorem normalizeCps_chars (l : List Nat) :
    ∀ c ∈ normalizeCps l,
      (isWordCp c = true ∧ lowerCp c = c) ∨ c = 32 := by
  intro c hc
  rcases mem_joinSpace _ c hc with h32 | ⟨t, ht, hct⟩
  · exact Or.inr h32
  · left
    have hfree := (pysplit_tokens _ t ht).2 c hct
    have hmem := pysplit_mem _ t ht c hct
    obtain ⟨m, hm, rfl⟩ := List.mem_map.mp hmem
    obtain ⟨a, _, rfl⟩ := List.mem_map.mp hm
    rcases subCp_classes (lowerCp a) with hw | hs
    · have hfix : subCp (lowerCp a) = lowerCp a := by
        rcases subCp_eq_or (lowerCp a) with h | h
        · exact h
        · rw [h] at hw
          exact absurd hw (by decide)
      rw [hfix]
      exact ⟨by rw [hfix] at hw; exact hw, lowerCp_lowerCp a⟩
    · exact absurd hs (by simp [hfree])

/-- The normalizer fixes its own output: characters are already lowered. -/
theorem map_lowerCp_normalizeCps (l : List Nat) :
    (normalizeCps l).map lowerCp = normalizeCps l := by
  apply map_fix
  intro c hc
  rcases normalizeCps_chars l c hc with ⟨_, hfix⟩ | rfl
  · exact hfix
  · decide

/-- The normalizer fixes its own output: characters are word chars or spaces. -/
theorem map_subCp_normalizeCps (l : List Nat) :
    (normalizeCps l).map subCp = normalizeCps l := by
  apply map_fix
  intro c hc
  rcases normalizeCps_chars l c hc with ⟨hw, _⟩ | rfl
  · exact subCp_fix c (Or.inl hw)
  · decide

/-- The normalizer fixes its own output entirely. -/
theorem normalizeCps_idem (l : List Nat) :
    normalizeCps (normalizeCps l) = normalizeCps l := by
  have h1 : normalizeCps (normalizeCps l) =
      joinSpace (pysplit (((normalizeCps l).map lowerCp).map subCp)) := rfl
  rw [h1, map_lowerCp_normalizeCps, map_subCp_normalizeCps]
  have h2 : normalizeCps l = joinSpace (pysplit ((l.map lowerCp).map subCp)) := rfl
  rw [h2, pysplit_joinSpace _ (pysplit_tokens _)]

/-- Membership via `getLast?`. -/
theorem mem_of_getLast_opt {l : List Nat} {x : Nat} (h : l.getLast? = some x) :
    x ∈ l := by
  rcases List.mem_getLast?_eq_getLast (by simpa using h) with ⟨hne, rfl⟩
  exact List.getLast_mem hne

/-- A list of nonzero-space characters satisfies the no-adjacent-spaces
chain. -/
theorem chain_no2sp_of_all {l : List Nat} (h : ∀ c ∈ l, c ≠ 32) :
    l.Chain' (fun a b => a ≠ 32 ∨ b ≠ 32) := by
  induction l with
  | nil => simp
  | cons a l ih =>
    cases l with
    | nil => simp
    | cons b m =>
      rw [List.chain'_cons]
      exact ⟨Or.inl (h a (by simp)), ih (fun c hc => h c (by simp [hc]))⟩

/-- A space-join of nonempty tokens is nonempty. -/
theorem joinSpace_ne_nil {ts : List (List Nat)} (hts : ts ≠ [])
    (h : ∀ t ∈ ts, t ≠ []) : joinSpace ts ≠ [] := by
  match ts with
  | [t] =>
    simpa [joinSpace] using h t (by simp)
  | t :: t' :: ts' =>
    simp [joinSpace]

/-- The head of a space-join of nonempty whitespace-free tokens is not a
space. -/
theorem joinSpace_head {ts : List (List Nat)}
    (h : ∀ t ∈ ts, t ≠ [] ∧ ∀ c ∈ t, isSpaceCp c = false) :
    (joinSpace ts).head? ≠ some 32 := by
  match ts with
  | [] => simp [joinSpace]
  | t :: ts' =>
    obtain ⟨hne, hfree⟩ := h t (by simp)
    obtain ⟨c, cs, rfl⟩ := List.exists_cons_of_ne_nil hne
    have hc : c ≠ 32 := by
      intro hc32
      have := hfree c (by simp)
      rw [hc32] at this
      exact absurd this (by decide)
    match ts' with
    | [] =>
      simpa [joinSpace] using hc
    | t' :: ts'' =>
      show ((c :: cs) ++ 32 :: joinSpace (t' :: ts'')).head? ≠ some 32
      simpa using hc

/-- The last character of a space-join of nonempty whitespace-free tokens is
not a space. -/
theorem joinSpace_getLast {ts : List (List Nat)}
    (h : ∀ t ∈ ts, t ≠ [] ∧ ∀ c ∈ t, isSpaceCp c = false) :
    (joinSpace ts).getLast? ≠ some 32 := by
  induction ts with
  | nil => simp [joinSpace]
  | cons t ts' ih =>
    match ts' with
    | [] =>
      intro hlast
      have hx : (32 : Nat) ∈ t := mem_of_getLast_opt (by simpa [joinSpace] using hlast)
      have := (h t (by simp)).2 32 hx
      exact absurd this (by decide)
    | t' :: ts'' =>
      have hrest : joinSpace (t' :: ts'') ≠ [] :=
        joinSpace_ne_nil (by simp) (fun u hu => (h u (by simp [hu])).1)
      have hstep : (joinSpace (t :: t' :: ts'')).getLast? =
          (joinSpace (t' :: ts'')).getLast? := by
        show (t ++ 32 :: joinSpace (t' :: ts'')).getLast? = _
        rw [List.getLast?_append_of_ne_nil _ (by simp)]
        rw [show (32 :: joinSpace (t' :: ts'')) = [32] ++ joinSpace (t' :: ts'') from rfl]
        rw [List.getLast?_append_of_ne_nil _ hrest]
      rw [hstep]
      exact ih (fun u hu => h u (by simp [hu]))

/-- A space-join of nonempty whitespace-free tokens never has two adjacent
spaces. -/
theorem joinSpace_chain {ts : List (List Nat)}
    (h : ∀ t ∈ ts, t ≠ [] ∧ ∀ c ∈ t, isSpaceCp c = false) :
    (joinSpace ts).Chain' (fun a b => a ≠ 32 ∨ b ≠ 32) := by
  induction ts with
  | nil => simp [joinSpace]
  | cons t ts' ih =>
    have hne32 : ∀ c ∈ t, c ≠ 32 := by
      intro c hc hc32
      have := (h t (by simp)).2 c hc
      rw [hc32] at this
      exact absurd this (by decide)
    match ts' with
    | [] =>
      show List.Chain' _ t
      exact chain_no2sp_of_all hne32
    | t' :: ts'' =>
      show List.Chain' _ (t ++ 32 :: joinSpace (t' :: ts''))
      rw [List.chain'_append]
      refine ⟨chain_no2sp_of_all hne32, ?_, ?_⟩
      · rw [List.chain'_cons']
        refine ⟨?_, ih (fun u hu => h u (by simp [hu]))⟩
        intro b hb
        right
        intro hb32
        rw [hb32] at hb
        exact @joinSpace_head (t' :: ts'') (fun u hu => h u (by simp [hu]))
          (by simpa using hb)
      · intro x hx y hy
        left
        exact hne32 x (mem_of_getLast_opt (by simpa using hx))

/-- The output of the normalizer is single-spaced: no leading or trailing
whitespace, no two adjacent spaces. -/
theorem normalizeCps_singleSpaced (l : List Nat) :
    singleSpaced (normalizeCps l) := by
  refine ⟨?_, ?_, ?_⟩
  · exact joinSpace_head (pysplit_tokens _)
  · exact joinSpace_getLast (pysplit_tokens _)
  · exact joinSpace_chain (pysplit_tokens _)

/-- Every character of a normalized string is a valid Unicode scalar. -/
theorem normalizeCps_lt (l : List Nat) : ∀ c ∈ normalizeCps l, c < 55296 := by
  intro c hc
  rcases normalizeCps_chars l c hc with ⟨hw, _⟩ | rfl
  · unfold isWordCp at hw
    simp only [Bool.or_eq_true, Bool.and_eq_true, decide_eq_true_eq, beq_iff_eq] at hw
    omega
  · omega

/-- `Char.ofNat` then `Char.toNat` is the identity below the surrogates. -/
theorem char_toNat_ofNat (n : Nat) (h : n < 55296) : (Char.ofNat n).toNat = n := by
  have hv : n.isValidChar := Or.inl h
  simp [Char.ofNat, hv]
  simp [Char.ofNatAux, Char.toNat]
  simp [UInt32.toNat, BitVec.toNat_ofNatLt]

/-- Converting valid code points to a string and back is the identity. -/
theorem strCps_cpsToStr (l : List Nat) (h : ∀ c ∈ l, c < 55296) :
    strCps (cpsToStr l) = l := by
  unfold strCps cpsToStr
  show (l.map Char.ofNat).map Char.toNat = l
  rw [List.map_map]
  exact map_fix _ l (fun c hc => char_toNat_ofNat c (h c hc))

/-- C10: the text normalizer is idempotent: normalizing an already-normalized
string changes nothing, both on code points and at the string-valued
`preprocess_text` interface. -/
theorem C10_normalizer_idempotent :
    (∀ l : List Nat, normalizeCps (normalizeCps l) = normalizeCps l) ∧
    (∀ s : String, preprocess_text (some (preprocess_text (some s))) =
      preprocess_text (some s)) := by
  refine ⟨normalizeCps_idem, ?_⟩
  intro s
  simp only [preprocess_text]
  rw [strCps_cpsToStr _ (normalizeCps_lt _), normalizeCps_idem]

/-- C7 counterexample: the underscore (code point 95) is neither
alphanumeric nor whitespace, yet `preprocess_text` keeps it (Python's `\w`
includes `_`), so the claim that every non-alphanumeric, non-whitespace
character is replaced by a space is false on input "a_b". -/
theorem C7_counterexample :
    95 ∈ normalizeCps [97, 95, 98] ∧ isAlnumCp 95 = false ∧
      isSpaceCp 95 = false := by
  decide

/-- C7 (amended): `preprocess_text` lower-cases, replaces every character
that is neither a word character (alphanumeric OR underscore, Python `\w`)
nor whitespace with a space, collapses whitespace runs to single spaces and
trims; null input yields the empty string; totality is inherent in the
model.  Stated as: missing input maps to ""; every output character is a
lowering-fixed word character or a single space; the output is
single-spaced. -/
theorem C7_normalizer_contract :
    preprocess_text none = "" ∧
    (∀ l : List Nat, ∀ c ∈ normalizeCps l,
      (isWordCp c = true ∧ lowerCp c = c) ∨ c = 32) ∧
    (∀ l : List Nat, singleSpaced (normalizeCps l)) :=
  ⟨rfl, normalizeCps_chars, normalizeCps_singleSpaced⟩

/-- Witness for C7: the amended contract applied at the concrete input
"Hi!" (code points [72, 105, 33]) and its output character 104 ('h'). -/
theorem C7_witness :
    (isWordCp 104 = true ∧ lowerCp 104 = 104) ∨ 104 = 32 :=
  C7_normalizer_contract.2.1 [72, 105, 33] 104 (by decide)

/-! ## Properties of `search_fast` -/

/-- A Python `[:k]` slice is always a `take`, hence a sublist. -/
theorem pySliceTo_sublist {α : Type} (l : List α) (k : Int) :
    List.Sublist (pySliceTo l k) l := by
  unfold pySliceTo
  exact List.take_sublist _ _

/-- A `[:k]` slice with `k ≥ 0` has at most `k` elements. -/
theorem pySliceTo_length {α : Type} (l : List α) (k : Int) (h : 0 ≤ k) :
    ((pySliceTo l k).length : Int) ≤ k := by
  unfold pySliceTo
  rw [if_pos h]
  have := List.length_take_le k.toNat l
  omega

/-- A `[:k]` slice with `k ≥ 1` keeps the head. -/
theorem pySliceTo_head {α : Type} (x : α) (l : List α) (k : Int) (h : 1 ≤ k) :
    (pySliceTo (x :: l) k).head? = some x := by
  unfold pySliceTo
  rw [if_pos (by omega)]
  have hk : 1 ≤ k.toNat := by omega
  cases hn : k.toNat with
  | zero => omega
  | succ n => simp

/-- A `[:0]` slice is empty. -/
theorem pySliceTo_zero {α : Type} (l : List α) : pySliceTo l 0 = [] := by
  unfold pySliceTo
  simp

/-- Results surviving deduplication carry codes outside the seen set. -/
theorem dedup_code_not_seen (l : List SearchResult) (seen : List (List Nat))
    (r : SearchResult) (h : r ∈ dedupByCode l seen) : r.order_code ∉ seen := by
  induction l generalizing seen with
  | nil => simp [dedupByCode] at h
  | cons x l ih =>
    rw [dedupByCode] at h
    split at h
    · exact ih seen h
    · rcases List.mem_cons.mp h with rfl | h
      · assumption
      · intro hmem
        exact (ih _ h) (List.mem_cons_of_mem _ hmem)

/-- Deduplicated results come from the input list. -/
theorem dedup_subset (l : List SearchResult) (seen : List (List Nat))
    (r : SearchResult) (h : r ∈ dedupByCode l seen) : r ∈ l := by
  induction l generalizing seen with
  | nil => simp [dedupByCode] at h
  | cons x l ih =>
    rw [dedupByCode] at h
    split at h
    · exact List.mem_cons_of_mem _ (ih seen h)
    · rcases List.mem_cons.mp h with rfl | h
      · exact List.mem_cons_self _ _
      · exact List.mem_cons_of_mem _ (ih _ h)

/-- Deduplication never repeats an `order_code`. -/
theorem dedup_nodup (l : List SearchResult) (seen : List (List Nat)) :
    ((dedupByCode l seen).map SearchResult.order_code).Nodup := by
  induction l generalizing seen with
  | nil => simp [dedupByCode]
  | cons x l ih =>
    rw [dedupByCode]
    split
    · exact ih seen
    · rw [List.map_cons, List.nodup_cons]
      refine ⟨?_, ih _⟩
      intro hmem
      rcases List.mem_map.mp hmem with ⟨r, hr, hcode⟩
      exact dedup_code_not_seen _ _ _ hr (by simp [hcode])

/-- A deduplicated result whose code also occurs in the left part of an
append was taken from the left part: the first occurrence wins. -/
theorem dedup_append_left (a : List SearchResult) :
    ∀ (seen : List (List Nat)) (b : List SearchResult) (r : SearchResult),
      r ∈ dedupByCode (a ++ b) seen →
      (∃ e ∈ a, e.order_code = r.order_code) → r ∈ a := by
  induction a with
  | nil =>
    intro seen b r _ he
    simp at he
  | cons x a ih =>
    intro seen b r hr he
    rw [List.cons_append, dedupByCode] at hr
    split at hr
    · rename_i hseen
      rcases he with ⟨e, hea, hecode⟩
      rcases List.mem_cons.mp hea with rfl | hea
      · exfalso
        exact dedup_code_not_seen _ _ _ hr (hecode ▸ hseen)
      · exact List.mem_cons_of_mem _ (ih _ b r hr ⟨e, hea, hecode⟩)
    · rename_i hseen
      rcases List.mem_cons.mp hr with rfl | hr
      · exact List.mem_cons_self _ _
      · have hne : r.order_code ≠ x.order_code := by
          intro hcontra
          exact dedup_code_not_seen _ _ _ hr (by simp [hcontra])
        rcases he with ⟨e, hea, hecode⟩
        rcases List.mem_cons.mp hea with rfl | hea
        · exact absurd hecode.symm hne
        · exact List.mem_cons_of_mem _ (ih _ b r hr ⟨e, hea, hecode⟩)

/-- Every exact-pass result is tagged `exact` with probability 1. -/
theorem exactPass_fields (td : List Row) (qc : List Nat) (r : SearchResult)
    (h : r ∈ exactPass td qc) :
    r.match_type = .exact ∧ r.probability = 1 ∧ r.tfidf_score = 1 ∧
      r.fuzzy_score = 1 := by
  rcases List.mem_map.mp h with ⟨row, _, rfl⟩
  exact ⟨rfl, rfl, rfl, rfl⟩

/-- The fuzzy loop with a non-positive `top_k` and empty accumulator
collects nothing: the `len(fuzzy_results) >= top_k` break fires before any
emission. -/
theorem fuzzyPass_nonpos (F : FuzzScorer) (td : List Row) (sims : List ℚ)
    (qc : List Nat) (topK : Int) (ex : List Nat) (h : topK ≤ 0) :
    ∀ idxs : List Nat, fuzzyPass F td sims qc topK ex idxs [] = [] := by
  intro idxs
  induction idxs with
  | nil => rfl
  | cons idx rest ih =>
    rw [fuzzyPass]
    split
    · exact ih
    · split
      · exact ih
      · rw [if_pos (by simp; omega)]

/-- The fuzzy loop ignores candidate indices at or beyond the training-set
bound: filtering them out first changes nothing. -/
theorem fuzzyPass_bounds (F : FuzzScorer) (td : List Row) (sims : List ℚ)
    (qc : List Nat) (topK : Int) (ex : List Nat) :
    ∀ (idxs : List Nat) (acc : List SearchResult),
      fuzzyPass F td sims qc topK ex idxs acc =
        fuzzyPass F td sims qc topK ex
          (idxs.filter (fun i => decide (i < td.length))) acc := by
  intro idxs
  induction idxs with
  | nil => intro acc; rfl
  | cons idx rest ih =>
    intro acc
    by_cases hb : td.length ≤ idx
    · rw [fuzzyPass, if_pos hb, List.filter_cons,
        if_neg (by simpa using hb), ih]
    · rw [List.filter_cons, if_pos (by simp; omega)]
      rw [fuzzyPass, if_neg hb]
      conv_rhs => rw [fuzzyPass, if_neg hb]
      split
      · exact ih acc
      · split
        · rfl
        · exact ih _

/-- `search_fast` unfolded to its three stages. -/
theorem search_fast_eq (F : FuzzScorer) (sims : List ℚ) (td : List Row)
    (q : List Nat) (topK : Int) :
    search_fast F sims td q topK =
      pySliceTo (dedupByCode (exactPass td (normalizeCps q) ++
        sortDescRes (fuzzyPass F td sims (normalizeCps q) topK
          (exactLabels td (normalizeCps q))
          ((pySliceFrom (argsortAsc sims) (-(topK * 3))).reverse) [])) [])
        topK := rfl

/-- `get?` of an in-bounds index yields the `getD` default access. -/
theorem get_opt_lt (l : List Row) (i : Nat) (h : i < l.length) :
    l.get? i = some (l.getD i ⟨0, [], [], []⟩) := by
  simp [List.get?_eq_getElem?, List.getD_eq_getElem?_getD, List.getElem?_eq_getElem h]

/-- C1 counterexample: with two training rows sharing the same normalized
customer query but different order codes, searching for the second row's
query returns the FIRST row's code in front, so the claim's "order_code =
E.order_code" fails for E = rowB. -/
theorem C1_counterexample :
    rowB ∈ tdAB ∧
    ((search_fast F0 [0, 0] tdAB rowB.query 5).map
      SearchResult.order_code).head? = some rowA.code ∧
    rowA.code ≠ rowB.code := by
  refine ⟨by decide, by decide, by decide⟩

/-- C1 (amended): for `top_k ≥ 1`, if any training row's normalized query
equals the normalized input query, the first element of `search_fast` is the
exact-pass result of the FIRST such row: `match_type = exact`, probability 1
and that row's order code (equal to `E.order_code` whenever `E` is the first
matching row).  Moreover every training example matches itself, so a first
matching row always exists when the query is a training example's query. -/
theorem C1_exact_first :
    (∀ (F : FuzzScorer) (sims : List ℚ) (td : List Row) (q : List Nat)
        (topK : Int) (row : Row), 1 ≤ topK →
      firstMatch td (normalizeCps q) = some row →
      (search_fast F sims td q topK).head? = some (mkExact row)) ∧
    (∀ (td : List Row) (E : Row), E ∈ td →
      ∃ row, firstMatch td (normalizeCps E.query) = some row) ∧
    (∀ row : Row, (mkExact row).match_type = .exact ∧
      (mkExact row).order_code = row.code ∧ (mkExact row).probability = 1) := by
  refine ⟨?_, ?_, fun row => ⟨rfl, rfl, rfl⟩⟩
  · intro F sims td q topK row h1 hm
    rw [search_fast_eq]
    cases hfl : td.filter (fun row => normalizeCps row.query == normalizeCps q) with
    | nil =>
      rw [firstMatch, hfl] at hm
      simp at hm
    | cons a rest =>
      have ha : a = row := by
        rw [firstMatch, hfl] at hm
        simpa using hm
      have hexact : exactPass td (normalizeCps q) = mkExact row :: rest.map mkExact := by
        rw [exactPass, hfl, List.map_cons, ha]
      rw [hexact, List.cons_append]
      have hded : dedupByCode (mkExact row ::
          (rest.map mkExact ++ sortDescRes (fuzzyPass F td sims (normalizeCps q)
            topK (exactLabels td (normalizeCps q))
            ((pySliceFrom (argsortAsc sims) (-(topK * 3))).reverse) []))) [] =
          mkExact row :: dedupByCode (rest.map mkExact ++
            sortDescRes (fuzzyPass F td sims (normalizeCps q) topK
              (exactLabels td (normalizeCps q))
              ((pySliceFrom (argsortAsc sims) (-(topK * 3))).reverse) []))
            [(mkExact row).order_code] := by
        rw [dedupByCode]
        simp
      rw [hded]
      exact pySliceTo_head _ _ topK h1
  · intro td E hE
    have hmem : E ∈ td.filter (fun row => normalizeCps row.query == normalizeCps E.query) :=
      List.mem_filter.mpr ⟨hE, by simp⟩
    cases hfl : td.filter (fun row => normalizeCps row.query == normalizeCps E.query) with
    | nil =>
      rw [hfl] at hmem
      simp at hmem
    | cons a rest =>
      exact ⟨a, by rw [firstMatch, hfl]; rfl⟩

/-- Witness for C1: the amended claim at the concrete training set `tdAB`,
query "abc" and `top_k = 1`. -/
theorem C1_witness :
    (search_fast F0 [0, 0] tdAB rowA.query 1).head? = some (mkExact rowA) :=
  C1_exact_first.1 F0 [0, 0] tdAB rowA.query 1 rowA (by decide) (by decide)

/-- C2 counterexample: `top_k = -1` is non-positive, yet with two exact
matches the Python slice `[:-1]` keeps one result, so the result list is
not empty. -/
theorem C2_counterexample :
    (-1 : Int) ≤ 0 ∧ search_fast F0 [0, 0] tdAB [97, 98, 99] (-1) ≠ [] := by
  refine ⟨by decide, by decide⟩

/-- C2 (amended): for any non-positive `top_k` the fuzzy pass contributes
nothing (the break fires immediately) and the call returns the Python slice
`[:top_k]` of the deduplicated exact-pass results — which is empty when
`top_k = 0`, but may be non-empty for negative `top_k`.  No error is raised
in either case (the function is total). -/
theorem C2_nonpos_topk (F : FuzzScorer) (sims : List ℚ) (td : List Row)
    (q : List Nat) (topK : Int) (h : topK ≤ 0) :
    search_fast F sims td q topK =
      pySliceTo (dedupByCode (exactPass td (normalizeCps q)) []) topK ∧
    (topK = 0 → search_fast F sims td q topK = []) := by
  have h1 : search_fast F sims td q topK =
      pySliceTo (dedupByCode (exactPass td (normalizeCps q)) []) topK := by
    rw [search_fast_eq, fuzzyPass_nonpos F td sims (normalizeCps q) topK _ h]
    simp [sortDescRes]
  refine ⟨h1, ?_⟩
  intro h0
  rw [h1, h0, pySliceTo_zero]

/-- Witness for C2: the amended claim at `top_k = 0` on the concrete
training set `tdAB`: the result is empty. -/
theorem C2_witness : search_fast F0 [0, 0] tdAB [97, 98, 99] 0 = [] :=
  (C2_nonpos_topk F0 [0, 0] tdAB [97, 98, 99] 0 (by decide)).2 rfl

/-- C3 counterexample: at `top_k = -1` the result has one element, which is
not "at most top_k" elements. -/
theorem C3_counterexample :
    ¬ (((search_fast F0 [0, 0] tdAB [97, 98, 99] (-1)).length : Int) ≤ -1) := by
  decide

/-- C3 (amended): for `top_k ≥ 0` the result has at most `top_k` elements
(for negative `top_k` Python slicing can keep results); for EVERY `top_k`
no order code repeats, and whenever a result's code also appears among the
exact-pass results, the kept result is the exact one (first occurrence wins
in the order: exact results, then score-sorted fuzzy results). -/
theorem C3_output_invariants :
    (∀ (F : FuzzScorer) (sims : List ℚ) (td : List Row) (q : List Nat)
        (topK : Int), 0 ≤ topK →
      ((search_fast F sims td q topK).length : Int) ≤ topK) ∧
    (∀ (F : FuzzScorer) (sims : List ℚ) (td : List Row) (q : List Nat)
        (topK : Int),
      ((search_fast F sims td q topK).map SearchResult.order_code).Nodup) ∧
    (∀ (F : FuzzScorer) (sims : List ℚ) (td : List Row) (q : List Nat)
        (topK : Int) (r : SearchResult), r ∈ search_fast F sims td q topK →
      (∃ e ∈ exactPass td (normalizeCps q), e.order_code = r.order_code) →
      r.match_type = .exact) := by
  refine ⟨?_, ?_, ?_⟩
  · intro F sims td q topK h
    rw [search_fast_eq]
    exact pySliceTo_length _ _ h
  · intro F sims td q topK
    rw [search_fast_eq]
    exact (dedup_nodup _ _).sublist ((pySliceTo_sublist _ _).map _)
  · intro F sims td q topK r hr hex
    rw [search_fast_eq] at hr
    have hr' := (pySliceTo_sublist _ _).subset hr
    have hmem := dedup_append_left _ [] _ r hr' hex
    exact (exactPass_fields _ _ _ hmem).1

/-- Witness for C3: the invariants applied at a concrete search call. -/
theorem C3_witness :
    ((search_fast F0 [0, 0] tdAB [97, 98, 99] 1).length : Int) ≤ 1 ∧
    ((search_fast F0 [0, 0] tdAB [97, 98, 99] 1).map
      SearchResult.order_code).Nodup ∧
    (mkExact rowA).match_type = .exact :=
  ⟨C3_output_invariants.1 F0 [0, 0] tdAB [97, 98, 99] 1 (by decide),
   C3_output_invariants.2.1 F0 [0, 0] tdAB [97, 98, 99] 1,
   C3_output_invariants.2.2 F0 [0, 0] tdAB [97, 98, 99] 1 (mkExact rowA)
     (by decide) ⟨mkExact rowA, by decide, rfl⟩⟩

/-- C4: every result emitted by the fuzzy pass of `search_fast` (beyond the
incoming accumulator) corresponds to an in-bounds training row and carries
exactly the documented scores: fuzzy score = max of the three fuzzy
comparisons divided by 100, tfidf score = that row's cosine similarity, and
probability = 0.7 × cosine + 0.3 × fuzzy score. -/
theorem C4_fuzzy_scoring (F : FuzzScorer) (td : List Row) (sims : List ℚ)
    (qc : List Nat) (topK : Int) (ex : List Nat) (idxs : List Nat)
    (acc : List SearchResult) (r : SearchResult)
    (hr : r ∈ fuzzyPass F td sims qc topK ex idxs acc) :
    r ∈ acc ∨ ∃ i row, td.get? i = some row ∧
      r.match_type = .fuzzy ∧
      r.order_code = row.code ∧
      r.description = row.desc ∧
      r.training_query = row.query ∧
      r.fuzzy_score = (max (F.scorePart qc (normalizeCps row.query))
        (max (F.scoreTokSort qc (normalizeCps row.query))
          (F.scorePart qc (normalizeCps row.desc)))) / 100 ∧
      r.tfidf_score = sims.getD i 0 ∧
      r.probability = 7/10 * sims.getD i 0 + 3/10 * r.fuzzy_score := by
  induction idxs generalizing acc with
  | nil => exact Or.inl hr
  | cons idx rest ih =>
    simp only [fuzzyPass] at hr
    by_cases h1 : td.length ≤ idx
    · rw [if_pos h1] at hr
      exact ih acc hr
    · rw [if_neg h1] at hr
      by_cases h2 : idx ∈ ex
      · rw [if_pos h2] at hr
        exact ih acc hr
      · rw [if_neg h2] at hr
        by_cases h3 : topK ≤ (acc.length : Int)
        · rw [if_pos h3] at hr
          exact Or.inl hr
        · rw [if_neg h3] at hr
          rcases ih _ hr with hacc | hfound
          · rcases List.mem_append.mp hacc with h | h
            · exact Or.inl h
            · right
              have hr0 : r = mkFuzzy F sims qc idx (td.getD idx ⟨0, [], [], []⟩) := by
                simpa using h
              refine ⟨idx, td.getD idx ⟨0, [], [], []⟩,
                get_opt_lt td idx (by omega), ?_⟩
              rw [hr0]
              exact ⟨rfl, rfl, rfl, rfl, rfl, rfl, rfl⟩
          · exact Or.inr hfound

/-- Witness for C4: the fuzzy-pass emission theorem applied to the single
result emitted for candidate index 0 over a one-row training set with
cosine similarity 1/2. -/
theorem C4_witness :
    mkFuzzy F0 [1/2] [121] 0 row1 ∈ ([] : List SearchResult) ∨
    ∃ i row, [row1].get? i = some row ∧
      (mkFuzzy F0 [1/2] [121] 0 row1).match_type = .fuzzy ∧
      (mkFuzzy F0 [1/2] [121] 0 row1).order_code = row.code ∧
      (mkFuzzy F0 [1/2] [121] 0 row1).description = row.desc ∧
      (mkFuzzy F0 [1/2] [121] 0 row1).training_query = row.query ∧
      (mkFuzzy F0 [1/2] [121] 0 row1).fuzzy_score =
        (max (F0.scorePart [121] (normalizeCps row.query))
          (max (F0.scoreTokSort [121] (normalizeCps row.query))
            (F0.scorePart [121] (normalizeCps row.desc)))) / 100 ∧
      (mkFuzzy F0 [1/2] [121] 0 row1).tfidf_score = [(1 : ℚ)/2].getD i 0 ∧
      (mkFuzzy F0 [1/2] [121] 0 row1).probability =
        7/10 * [(1 : ℚ)/2].getD i 0 +
          3/10 * (mkFuzzy F0 [1/2] [121] 0 row1).fuzzy_score :=
  C4_fuzzy_scoring F0 [row1] [1/2] [121] 5 [] [0] []
    (mkFuzzy F0 [1/2] [121] 0 row1) (by simp [fuzzyPass])

/-- C9: with an empty training set `search_fast` returns the empty list for
every query and every `top_k` (and any similarity vector, in particular the
one produced by the dummy placeholder embedding), because the exact pass
emits nothing and the fuzzy pass skips every candidate index at or beyond
the training-set bound — as the accompanying conjunct states in general. -/
theorem C9_empty_training :
    (∀ (F : FuzzScorer) (sims : List ℚ) (q : List Nat) (topK : Int),
      search_fast F sims [] q topK = []) ∧
    (∀ (F : FuzzScorer) (td : List Row) (sims : List ℚ) (qc : List Nat)
        (topK : Int) (ex : List Nat) (idxs : List Nat)
        (acc : List SearchResult),
      fuzzyPass F td sims qc topK ex idxs acc =
        fuzzyPass F td sims qc topK ex
          (idxs.filter (fun i => decide (i < td.length))) acc) := by
  refine ⟨?_, fuzzyPass_bounds⟩
  intro F sims q topK
  rw [search_fast_eq]
  rw [fuzzyPass_bounds]
  simp only [List.length_nil]
  have hfil : ((pySliceFrom (argsortAsc sims) (-(topK * 3))).reverse).filter
      (fun i => decide (i < 0)) = [] := by
    simp
  rw [hfil]
  show pySliceTo (dedupByCode (exactPass [] (normalizeCps q) ++ sortDescRes []) []) topK = []
  simp [exactPass, sortDescRes, dedupByCode, pySliceTo]

/-! ## Properties of the probabilistic matcher -/

/-- Looking up the key just set yields the new value. -/
theorem dictGet_set_eq (d : List (List Nat × ℚ)) (k : List Nat) (v : ℚ) :
    dictGet (dictSet d k v) k = some v := by
  induction d with
  | nil => simp [dictSet, dictGet]
  | cons p rest ih =>
    rw [dictSet]
    split
    · rw [dictGet, if_pos rfl]
    · rw [dictGet]
      rename_i hne
      rw [if_neg hne, ih]

/-- Setting one key leaves lookups of other keys unchanged. -/
theorem dictGet_set_ne (d : List (List Nat × ℚ)) (k k' : List Nat) (v : ℚ)
    (h : k ≠ k') : dictGet (dictSet d k v) k' = dictGet d k' := by
  induction d with
  | nil => simp [dictSet, dictGet, h]
  | cons p rest ih =>
    rw [dictSet]
    split
    · rename_i hp
      rw [dictGet, if_neg h, dictGet, hp, if_neg h]
    · rw [dictGet, dictGet, ih]

/-- The running maximum over the boost-table fold, with arbitrary starting
dictionary. -/
theorem boost_fold (F : FuzzScorer) (q : List Nat) :
    ∀ (td : List Row) (d : List (List Nat × ℚ)) (code : List Nat),
      dictGet (td.foldl (fun d row =>
        let ms := maxSim4 F (normalizeCps q) (normalizeCps row.query)
        if 7/10 ≤ ms then
          dictSet d row.code (max ((dictGet d row.code).getD 0) (boostOf ms))
        else d) d) code =
      optAccMax (dictGet d code) (matchingBoosts F td q code) := by
  intro td
  induction td with
  | nil => intro d code; rfl
  | cons row td ih =>
    intro d code
    rw [List.foldl_cons]
    by_cases hms : 7/10 ≤ maxSim4 F (normalizeCps q) (normalizeCps row.query)
    · by_cases hcode : row.code = code
      · have hfil : matchingBoosts F (row :: td) q code =
            boostOf (maxSim4 F (normalizeCps q) (normalizeCps row.query)) ::
              matchingBoosts F td q code := by
          rw [matchingBoosts, matchingBoosts, List.filter_cons,
            if_pos (by simp [hcode, hms]), List.map_cons]
        rw [hfil]
        simp only [if_pos hms]
        rw [ih]
        rw [hcode, dictGet_set_eq]
        rfl
      · have hfil : matchingBoosts F (row :: td) q code =
            matchingBoosts F td q code := by
          rw [matchingBoosts, matchingBoosts, List.filter_cons,
            if_neg (by simp [hcode])]
        rw [hfil]
        simp only [if_pos hms]
        rw [ih, dictGet_set_ne _ _ _ _ hcode]
    · have hfil : matchingBoosts F (row :: td) q code =
          matchingBoosts F td q code := by
        rw [matchingBoosts, matchingBoosts, List.filter_cons,
          if_neg (by simp [hms])]
      rw [hfil]
      simp only [if_neg hms]
      rw [ih]

/-- The running maximum starting from a value is attained and dominates. -/
theorem optAccMax_some (l : List ℚ) :
    ∀ (a b : ℚ), optAccMax (some a) l = some b →
      (b = a ∨ b ∈ l) ∧ a ≤ b ∧ ∀ x ∈ l, x ≤ b := by
  induction l with
  | nil =>
    intro a b h
    rw [optAccMax] at h
    cases h
    exact ⟨Or.inl rfl, le_refl _, by simp⟩
  | cons x l ih =>
    intro a b h
    rw [optAccMax] at h
    have h' : optAccMax (some (max a x)) l = some b := h
    obtain ⟨hb, hle, hall⟩ := ih (max a x) b h'
    refine ⟨?_, le_trans (le_max_left a x) hle, ?_⟩
    · rcases hb with hb | hb
      · rcases max_choice a x with hm | hm
        · exact Or.inl (by rw [hb, hm])
        · exact Or.inr (by simp [hb, hm])
      · exact Or.inr (by simp [hb])
    · intro y hy
      rcases List.mem_cons.mp hy with rfl | hy
      · exact le_trans (le_max_right a y) hle
      · exact hall y hy

/-- A running maximum started from a value is never `none`. -/
theorem optAccMax_isSome (l : List ℚ) :
    ∀ a : ℚ, optAccMax (some a) l ≠ none := by
  induction l with
  | nil =>
    intro a h
    simp [optAccMax] at h
  | cons x l ih =>
    intro a
    rw [optAccMax]
    exact ih _

/-- A running maximum starting from `none` is `none` exactly on the empty
list. -/
theorem optAccMax_none (l : List ℚ) :
    optAccMax none l = none ↔ l = [] := by
  cases l with
  | nil => simp [optAccMax]
  | cons x l =>
    rw [optAccMax]
    constructor
    · intro h
      exact absurd h (optAccMax_isSome l _)
    · intro h
      cases h

/-- Every matching boost clears the 0.3 floor. -/
theorem matchingBoosts_ge (F : FuzzScorer) (td : List Row) (q : List Nat)
    (code : List Nat) : ∀ b ∈ matchingBoosts F td q code, 3/10 ≤ b := by
  intro b hb
  rw [matchingBoosts] at hb
  rcases List.mem_map.mp hb with ⟨row, hrow, rfl⟩
  have hcond := (List.mem_filter.mp hrow).2
  have hms : 7/10 ≤ maxSim4 F (normalizeCps q) (normalizeCps row.query) := by
    simpa using (of_decide_eq_true hcond).2
  rw [boostOf]
  have h0 : 0 ≤ (maxSim4 F (normalizeCps q) (normalizeCps row.query) - 7/10) *
      ((5/10) / (3/10)) := by
    apply mul_nonneg
    · linarith
    · norm_num
  linarith

/-- C5: the training-boost table maps each order code to the running
maximum (with Python's `get(code, 0)` default) of the boosts of the
training rows with that code whose max-of-four similarity clears 0.70; a
code is absent exactly when no row matches; when present, the value is one
of the matching boosts and dominates them all (the per-code maximum); the
boost curve is `0.3 + (s - 0.7)·(0.5/0.3)`, giving 0.30 at similarity 0.70
and 0.80 at similarity 1.0, and is non-decreasing on [0.70, 1]. -/
theorem C5_training_boost :
    (∀ (F : FuzzScorer) (td : List Row) (q code : List Nat),
      dictGet (get_training_boost F td q) code =
        optAccMax none (matchingBoosts F td q code)) ∧
    (∀ (F : FuzzScorer) (td : List Row) (q code : List Nat),
      dictGet (get_training_boost F td q) code = none ↔
        matchingBoosts F td q code = []) ∧
    (∀ (F : FuzzScorer) (td : List Row) (q code : List Nat) (b : ℚ),
      dictGet (get_training_boost F td q) code = some b →
        b ∈ matchingBoosts F td q code ∧
        ∀ x ∈ matchingBoosts F td q code, x ≤ b) ∧
    boostOf (7/10) = 3/10 ∧ boostOf 1 = 8/10 ∧
    (∀ s t : ℚ, 7/10 ≤ s → s ≤ t → t ≤ 1 → boostOf s ≤ boostOf t) := by
  have hchar : ∀ (F : FuzzScorer) (td : List Row) (q code : List Nat),
      dictGet (get_training_boost F td q) code =
        optAccMax none (matchingBoosts F td q code) := by
    intro F td q code
    exact boost_fold F q td [] code
  refine ⟨hchar, ?_, ?_, by norm_num [boostOf], by norm_num [boostOf], ?_⟩
  · intro F td q code
    rw [hchar]
    exact optAccMax_none _
  · intro F td q code b hb
    rw [hchar] at hb
    cases hl : matchingBoosts F td q code with
    | nil =>
      rw [hl] at hb
      simp [optAccMax] at hb
    | cons x l =>
      rw [hl] at hb
      rw [optAccMax] at hb
      have hx : (3:ℚ)/10 ≤ x := matchingBoosts_ge F td q code x (by simp [hl])
      have hmax : max ((none : Option ℚ).getD 0) x = x := by
        simp
        linarith
      rw [hmax] at hb
      obtain ⟨hbm, hxb, hall⟩ := optAccMax_some l x b hb
      constructor
      · rcases hbm with rfl | hbm
        · simp
        · simp [hbm]
      · intro y hy
        rcases List.mem_cons.mp hy with rfl | hy
        · exact hxb
        · exact hall y hy
  · intro s t hs hst _
    rw [boostOf, boostOf]
    have := mul_le_mul_of_nonneg_right (sub_le_sub_right hst (7/10 : ℚ))
      (by norm_num : (0:ℚ) ≤ (5/10) / (3/10))
    linarith

/-- Witness for C5: the boost curve is monotone between similarities 0.7
and 0.9. -/
theorem C5_witness : boostOf (7/10) ≤ boostOf (9/10) :=
  C5_training_boost.2.2.2.2.2 (7/10) (9/10) (by norm_num) (by norm_num)
    (by norm_num)

/-- C6: `predict_probability` raises (an `Except.error`) exactly when the
model is not trained; on a trained model it returns a value clipped into
[0, 1] for every combination of input strings. -/
theorem C6_predict_clip :
    (∀ (M : ProbModel) (F : FuzzScorer) (q d c : List Nat),
      M.is_trained = false →
      predict_probability M F q d c =
        Except.error "Model not trained. Call train() first.") ∧
    (∀ (M : ProbModel) (F : FuzzScorer) (q d c : List Nat),
      M.is_trained = true →
      ∃ p : ℚ, predict_probability M F q d c = Except.ok p ∧
        0 ≤ p ∧ p ≤ 1) := by
  constructor
  · intro M F q d c h
    rw [predict_probability, h]
    simp
  · intro M F q d c h
    rw [predict_probability, h]
    refine ⟨max 0 (min 1 (M.predictRaw (extract_features F q d c))), ?_,
      le_max_left _ _, max_le (by norm_num) (min_le_left _ _)⟩
    simp

/-- Witness for C6: a concrete untrained model errors; a concrete trained
model with raw output 2 yields a clipped in-range probability. -/
theorem C6_witness :
    predict_probability probModelUntrained F1 [] [] [] =
      Except.error "Model not trained. Call train() first." ∧
    ∃ p : ℚ, predict_probability probModelHi F1 [] [] [] = Except.ok p ∧
      0 ≤ p ∧ p ≤ 1 :=
  ⟨C6_predict_clip.1 probModelUntrained F1 [] [] [] rfl,
   C6_predict_clip.2 probModelHi F1 [] [] [] rfl⟩

/-- C8 counterexample: the feature vector has 10 entries, not 11: the
source appends exactly ten features (four query/description fuzzy scores,
two query/code fuzzy scores, one length ratio, three word overlaps). -/
theorem C8_counterexample :
    (extract_features F1 [97] [98] [99]).length = 10 ∧ (10 : Nat) ≠ 11 :=
  ⟨rfl, by decide⟩

/-- C8 (amended): `extract_features` returns a vector of exactly TEN
features in the spec's fixed order: four query/description fuzzy ratios
over 100, two query/code fuzzy ratios over 100, a length ratio that is 0
when the normalized description is empty, and three word-overlap ratios
each 0 when the denominator word set is empty; fuzzy entries lie in [0, 1]
whenever the scorers respect their documented [0, 100] range; the function
is pure, total and deterministic (a Lean function). -/
theorem C8_feature_vector :
    (∀ (F : FuzzScorer) (q d c : List Nat),
      extract_features F q d c =
        [ F.scoreSimple (normalizeCps q) (normalizeCps d) / 100,
          F.scorePart (normalizeCps q) (normalizeCps d) / 100,
          F.scoreTokSort (normalizeCps q) (normalizeCps d) / 100,
          F.scoreTokSet (normalizeCps q) (normalizeCps d) / 100,
          F.scoreSimple (normalizeCps q) (normalizeCps c) / 100,
          F.scorePart (normalizeCps q) (normalizeCps c) / 100,
          if 0 < (normalizeCps d).length then
            ((normalizeCps q).length : ℚ) / ((normalizeCps d).length : ℚ)
          else 0,
          if 0 < (pysplit (normalizeCps d)).toFinset.card then
            (((pysplit (normalizeCps q)).toFinset ∩
              (pysplit (normalizeCps d)).toFinset).card : ℚ) /
              ((pysplit (normalizeCps d)).toFinset.card : ℚ)
          else 0,
          if 0 < (pysplit (normalizeCps q)).toFinset.card then
            (((pysplit (normalizeCps q)).toFinset ∩
              (pysplit (normalizeCps d)).toFinset).card : ℚ) /
              ((pysplit (normalizeCps q)).toFinset.card : ℚ)
          else 0,
          if 0 < (pysplit (normalizeCps c)).toFinset.card then
            (((pysplit (normalizeCps q)).toFinset ∩
              (pysplit (normalizeCps c)).toFinset).card : ℚ) /
              ((pysplit (normalizeCps c)).toFinset.card : ℚ)
          else 0 ]) ∧
    (∀ (F : FuzzScorer) (q d c : List Nat),
      (extract_features F q d c).length = 10) ∧
    (∀ (F : FuzzScorer) (q d c : List Nat), normalizeCps d = [] →
      (extract_features F q d c).getD 6 0 = 0 ∧
      (extract_features F q d c).getD 7 0 = 0) ∧
    (∀ (F : FuzzScorer) (q d c : List Nat),
      pysplit (normalizeCps q) = [] →
      (extract_features F q d c).getD 8 0 = 0) ∧
    (∀ (F : FuzzScorer) (q d c : List Nat),
      pysplit (normalizeCps c) = [] →
      (extract_features F q d c).getD 9 0 = 0) ∧
    (∀ (F : FuzzScorer) (q d c : List Nat), FuzzBounded F →
      ∀ i : Nat, i < 6 → 0 ≤ (extract_features F q d c).getD i 0 ∧
        (extract_features F q d c).getD i 0 ≤ 1) := by
  refine ⟨fun F q d c => rfl, fun F q d c => rfl, ?_, ?_, ?_, ?_⟩
  · intro F q d c h
    constructor
    · show (if 0 < (normalizeCps d).length then _ else (0:ℚ)) = 0
      rw [h]
      simp
    · show (if 0 < (pysplit (normalizeCps d)).toFinset.card then _ else (0:ℚ)) = 0
      rw [h]
      simp [pysplit, pysplitAux]
  · intro F q d c h
    show (if 0 < (pysplit (normalizeCps q)).toFinset.card then _ else (0:ℚ)) = 0
    rw [h]
    simp
  · intro F q d c h
    show (if 0 < (pysplit (normalizeCps c)).toFinset.card then _ else (0:ℚ)) = 0
    rw [h]
    simp
  · intro F q d c hb i hi
    have hdiv : ∀ x : ℚ, 0 ≤ x → x ≤ 100 → 0 ≤ x / 100 ∧ x / 100 ≤ 1 := by
      intro x h0 h100
      constructor
      · positivity
      · rw [div_le_one (by norm_num)]
        linarith
    obtain ⟨⟨hs0, hs1⟩, ⟨hp0, hp1⟩, ⟨ht0, ht1⟩, ⟨hts0, hts1⟩⟩ :=
      hb (normalizeCps q) (normalizeCps d)
    obtain ⟨⟨hcs0, hcs1⟩, ⟨hcp0, hcp1⟩, _, _⟩ :=
      hb (normalizeCps q) (normalizeCps c)
    interval_cases i
    · exact hdiv _ hs0 hs1
    · exact hdiv _ hp0 hp1
    · exact hdiv _ ht0 ht1
    · exact hdiv _ hts0 hts1
    · exact hdiv _ hcs0 hcs1
    · exact hdiv _ hcp0 hcp1

/-- Witness for C8: the amended claim at concrete inputs: the length-ratio
guard fires on an empty description, and the first fuzzy entry of a bounded
scorer is in range. -/
theorem C8_witness :
    (extract_features F1 [97] [] [99]).getD 6 0 = 0 ∧
    (0 ≤ (extract_features F1 [97] [98] [99]).getD 0 0 ∧
      (extract_features F1 [97] [98] [99]).getD 0 0 ≤ 1) :=
  ⟨(C8_feature_vector.2.2.1 F1 [97] [] [99] rfl).1,
   C8_feature_vector.2.2.2.2.2 F1 [97] [98] [99]
     (fun a b => by norm_num [F1]) 0 (by norm_num)⟩

end BrianTest
